import Mathlib

/-!
Shallow embedding of the storage/watcher core of claude-run
(src/storage.rs, src/state.rs, src/watcher.rs, src/models.rs).

File contents are modelled as `List Char`, one `Char` per byte of the
UTF-8 text (all relevant delimiters are ASCII, and `str::len` in the
source counts bytes).  JSON parsing of a single log line
(`serde_json::from_str::<ConversationMessage>`) is abstracted as a
function parameter `parse : List Char → Option ConversationMessage`:
every property verified here is parametric in the line parser, exactly
as the source logic is.  Likewise `serde_json::from_str::<Value>`
followed by `.get("type").as_str()` is abstracted as
`jsonType : List Char → Option String`.
-/

/-- A JSON field value, to the extent the code inspects it: the code only
ever calls `as_str()` on fields of `extra`, so a value is either a JSON
string or anything else. -/
inductive JsonVal where
  | str (s : String)
  | notStr
deriving DecidableEq

/-- models.rs `TokenUsage`. -/
structure TokenUsage where
  input_tokens : Option Nat
  output_tokens : Option Nat
  cache_creation_input_tokens : Option Nat
  cache_read_input_tokens : Option Nat
deriving DecidableEq

/-- models.rs `MessageContent`: plain text or structured blocks.  No claim
verified here inspects the interior of blocks, so they stay abstract. -/
inductive MessageContent where
  | text (t : String)
  | blocks
deriving DecidableEq

/-- models.rs `MessageBody`. -/
structure MessageBody where
  role : Option String
  content : Option MessageContent
  model : Option String
  usage : Option TokenUsage
deriving DecidableEq

/-- models.rs `ConversationMessage`.  The fields `uuid`, `parentUuid`,
`timestamp` and `sessionId` are carried opaquely by the source and never
inspected by the functions under verification, so they are not modelled.
`extra` is the flattened map of remaining fields. -/
structure ConversationMessage where
  msg_type : String
  message : Option MessageBody
  summary : Option String
  extra : List (String × JsonVal)
deriving DecidableEq

/-- storage.rs / models.rs `StreamResult`. -/
structure StreamResult where
  messages : List ConversationMessage
  next_offset : Nat
deriving DecidableEq

/-- First-match association-list lookup (DashMap / serde_json Map `get`). -/
def lookupKey {α : Type} (k : String) : List (String × α) → Option α
  | [] => none
  | (k', v) :: rest => if k' = k then some v else lookupKey k rest

/-- Boolean prefix test on character lists. -/
def isPrefixL : List Char → List Char → Bool
  | [], _ => true
  | _ :: _, [] => false
  | a :: as, b :: bs => if a = b then isPrefixL as bs else false

/-- Boolean substring test on character lists (Rust `str::contains` with a
string pattern, non-empty in every use below). -/
def isInfixL (pat : List Char) : List Char → Bool
  | [] => pat.isEmpty
  | c :: cs => isPrefixL pat (c :: cs) || isInfixL pat cs

/-- Rust `str::contains` with a substring pattern. -/
def containsS (s pat : String) : Bool := isInfixL pat.data s.data

/-- Split at the first occurrence of `pat`: returns the part before the
occurrence and the part after it (Rust `str::find` followed by slicing). -/
def splitFirst (pat : List Char) : List Char → Option (List Char × List Char)
  | [] => if pat.isEmpty then some ([], []) else none
  | c :: cs =>
    if isPrefixL pat (c :: cs) then some ([], (c :: cs).drop pat.length)
    else
      match splitFirst pat cs with
      | some (pre, post) => some (c :: pre, post)
      | none => none

/-- storage.rs `extract_task_id`: the text between the first
`<task-id>` and the first following `</task-id>`. -/
def extract_task_id (text : String) : Option String :=
  match splitFirst "<task-id>".data text.data with
  | none => none
  | some (_, rest) =>
    match splitFirst "</task-id>".data rest with
    | none => none
    | some (tid, _) => some (String.mk tid)

/-- A line that Rust's `line.trim().is_empty()` reports as blank. -/
def isBlank (l : List Char) : Bool := l.all (fun c => c.isWhitespace)

/-- storage.rs `queue_op_to_user_message`: rewrite a queue-operation line
whose `content` field holds a task-notification into a user message. -/
def queue_op_to_user_message (m : ConversationMessage) : Option ConversationMessage :=
  match lookupKey "content" m.extra with
  | some (JsonVal.str content) =>
    if containsS content "<task-notification>" then
      some { m with
              msg_type := "user",
              message := some { role := some "user",
                                content := some (MessageContent.text content),
                                model := none, usage := none } }
    else none
  | _ => none

/-- The messages pushed for one successfully parsed line of
`get_conversation_stream` (storage.rs 667-684): conversational turns and
summaries verbatim, queue-operations through `queue_op_to_user_message`,
everything else dropped. -/
def emitMsg (m : ConversationMessage) : List ConversationMessage :=
  if m.msg_type = "user" ∨ m.msg_type = "assistant" ∨ m.msg_type = "summary" then [m]
  else if m.msg_type = "queue-operation" then (queue_op_to_user_message m).toList
  else []

/-- One completed line of the tailer loop (storage.rs 659-684): a blank
line is consumed silently, a parsed line is consumed and possibly emitted,
and a parse failure aborts the whole read, discarding the continuation
(`rest`) and reporting zero consumed bytes from this point on. -/
def stepLine (parse : List Char → Option ConversationMessage)
    (line : List Char) (rest : List ConversationMessage × Nat) :
    List ConversationMessage × Nat :=
  if isBlank line then (rest.1, line.length + 1 + rest.2)
  else
    match parse line with
    | some m => (emitMsg m ++ rest.1, line.length + 1 + rest.2)
    | none => ([], 0)

/-- The reader loop of `get_conversation_stream`: `cur` is the portion of
the current line read so far (never containing a newline), the second
argument the remaining bytes.  `lines.next_line()` yields a line at every
newline and a final unterminated line at end of file; the loop charges
`line.len() + 1` bytes per line either way. -/
def tailAux (parse : List Char → Option ConversationMessage) :
    List Char → List Char → List ConversationMessage × Nat
  | cur, [] => if cur = [] then ([], 0) else stepLine parse cur ([], 0)
  | cur, c :: cs =>
    if c = '\n' then stepLine parse cur (tailAux parse [] cs)
    else tailAux parse (cur ++ [c]) cs

/-- How `get_conversation_stream` reaches the bytes of a session: the id
may fail to resolve to a path (`find_session_file` returns `None`), the
resolved file may fail to open, its metadata may fail, or the content is
available.  (A seek to a valid offset of an open regular file does not
fail and is not modelled.) -/
inductive FileAccess where
  | noFile
  | openError
  | metadataError
  | ok (content : List Char)

/-- storage.rs `get_conversation_stream` (lines 599-697). -/
def get_conversation_stream (parse : List Char → Option ConversationMessage)
    (file : FileAccess) (from_offset : Nat) : StreamResult :=
  match file with
  | FileAccess.noFile => { messages := [], next_offset := 0 }
  | FileAccess.openError => { messages := [], next_offset := from_offset }
  | FileAccess.metadataError => { messages := [], next_offset := from_offset }
  | FileAccess.ok content =>
    let file_size := content.length
    if from_offset ≥ file_size then { messages := [], next_offset := from_offset }
    else
      let r := tailAux parse [] (content.drop from_offset)
      let actual_offset := from_offset + r.2
      { messages := r.1,
        next_offset := if actual_offset > file_size then file_size else actual_offset }

/-- `n` successive tailer calls against a fixed file, each resuming at the
`next_offset` returned by the previous call, with all message batches
concatenated in order. -/
def tailCalls (parse : List Char → Option ConversationMessage)
    (file : FileAccess) : Nat → Nat → List ConversationMessage
  | 0, _ => []
  | n + 1, off =>
    let r := get_conversation_stream parse file off
    r.messages ++ tailCalls parse file n r.next_offset

/-- Concrete line parser used by the evaluation witnesses below. -/
def sampleMsg (t : String) : ConversationMessage :=
  { msg_type := t, message := none, summary := none, extra := [] }

/-- A tiny concrete parser: two well-formed lines, one line that only
parses once completed with a final bang, everything else malformed. -/
def sampleParse (l : List Char) : Option ConversationMessage :=
  if l = "u1".data then some (sampleMsg "user")
  else if l = "a1".data then some (sampleMsg "assistant")
  else if l = "bad!".data then some (sampleMsg "user")
  else none

/-- storage.rs `encode_project_path`: replace every path separator and
every dot of a project path by the single filler character. -/
def encode_project_path (p : String) : String :=
  String.mk (p.data.map (fun c => if c = '/' ∨ c = '.' then '-' else c))

/-- storage.rs `decode_project_path`: when the encoded name begins with
the filler, replace every filler by a separator (`replacen` with a count
of `encoded.len()` replaces every occurrence); otherwise return the name
unchanged.  Dots are not restored. -/
def decode_project_path (e : String) : String :=
  if e.data.head? = some '-' then
    String.mk (e.data.map (fun c => if c = '-' then '/' else c))
  else e

/-- Rust `str::lines`, as used by `count_session_messages`,
`get_conversation` and `delete_session`: split on newline with no
trailing empty line.  (Log lines are LF-terminated; the extra CR
stripping of CRLF input is not modelled.) -/
def linesAux : List Char → List Char → List (List Char)
  | cur, [] => if cur = [] then [] else [cur]
  | cur, c :: cs => if c = '\n' then cur :: linesAux [] cs else linesAux (cur ++ [c]) cs

/-- All lines of a file content. -/
def linesOf (cs : List Char) : List (List Char) := linesAux [] cs

/-- The counting pass of storage.rs `count_session_messages` (lines
323-335): non-blank lines whose parsed JSON "type" is a conversational
turn ("user" or "assistant"). -/
def count_messages (jsonType : List Char → Option String) (content : List Char) : Nat :=
  (((linesOf content).filter (fun l => !(isBlank l))).filter (fun l =>
      match jsonType l with
      | some t => (t == "user") || (t == "assistant")
      | none => false)).length

/-- storage.rs `count_session_messages` (lines 300-339) for a resolved,
readable file: consult the cached (count, size) pair against the current
file size; on a hit return it untouched, on any mismatch (or no cache
entry) recount from the content and store the new pair.  The boolean
records whether file content was read. -/
def count_session_messages (jsonType : List Char → Option String)
    (content : List Char) (cache : Option (Nat × Nat)) :
    Nat × Option (Nat × Nat) × Bool :=
  match cache with
  | some cs =>
    if cs.2 = content.length then (cs.1, some cs, false)
    else (count_messages jsonType content,
          some (count_messages jsonType content, content.length), true)
  | none =>
    (count_messages jsonType content,
     some (count_messages jsonType content, content.length), true)

/-- Concrete "type"-field extractor used by the evaluation witnesses. -/
def sampleJsonType (l : List Char) : Option String :=
  if l = "u".data then some "user"
  else if l = "a".data then some "assistant"
  else if l = "m".data then some "meta"
  else none

-- ======================================================================
/-- Rust `str::ends_with`. -/
def endsWithS (s pat : String) : Bool := isPrefixL pat.data.reverse s.data.reverse

/-- Split a character list at every occurrence of a separator character
(Rust `str::split(sep)`): `cur` accumulates the current segment. -/
def splitCharAux (sep : Char) : List Char → List Char → List (List Char)
  | cur, [] => [cur]
  | cur, c :: cs =>
    if c = sep then cur :: splitCharAux sep [] cs
    else splitCharAux sep (cur ++ [c]) cs

/-- Rust `str::split(sep)` on a character list. -/
def splitChar (sep : Char) (cs : List Char) : List (List Char) :=
  splitCharAux sep [] cs

/-- Rust `Vec::join(sep)` for a one-character separator. -/
def joinWith (sep : Char) : List (List Char) → List Char
  | [] => []
  | [l] => l
  | l :: ls => l ++ sep :: joinWith sep ls

/-- Rust `Path::file_name` for the forward-slash paths the watcher sees:
the last non-empty component, if any. -/
def file_name (p : String) : Option (List Char) :=
  ((splitChar '/' p.data).filter (fun l => !l.isEmpty)).getLast?

/-- Rust `Path::file_stem` applied to a file name: the whole name when it
holds no dot, or begins with its only dot; otherwise the portion before
the final dot. -/
def stem_of_name (name : List Char) : List Char :=
  match splitChar '.' name with
  | [] => name
  | [_] => name
  | first :: rest =>
    if first = [] ∧ rest.length = 1 then name
    else joinWith '.' ((first :: rest).dropLast)

/-- Rust `Path::file_stem` on a full path. -/
def file_stem (p : String) : Option String :=
  (file_name p).map (fun n => String.mk (stem_of_name n))

/-- The watcher-visible state touched by `emit_change`: the Log Index
(`AppState.file_index`) and the roster-cache dirty flag
(`AppState.history_dirty`, set through `invalidate_history_cache`,
state.rs 100-102). -/
structure WatchState where
  fileIndex : List (String × String)
  historyDirty : Bool
deriving DecidableEq

/-- The broadcasts `emit_change` can send: `history_tx.send(())` and
`session_tx.send((sessionId, filePath))`. -/
inductive Notification where
  | historyChanged
  | sessionChanged (id : String) (path : String)
deriving DecidableEq

/-- watcher.rs `emit_change` (lines 140-164): classify a debounced path,
returning the updated state and the broadcasts sent. -/
def emit_change (st : WatchState) (path : String) : WatchState × List Notification :=
  if endsWithS path "history.jsonl" then
    ({ st with historyDirty := true }, [Notification.historyChanged])
  else if endsWithS path ".jsonl" && !(containsS path "/subagents/") then
    match file_stem path with
    | some sid =>
      ({ st with fileIndex := (sid, path) :: st.fileIndex },
       [Notification.sessionChanged sid path])
    | none => (st, [])
  else (st, [])

/-- Concrete watcher state for the evaluation witnesses. -/
def sampleWatchState : WatchState := { fileIndex := [], historyDirty := false }

-- ======================================================================
/-- The task id embedded in a message's plain-text content, exactly as
both the seen-set pass (storage.rs 550-561) and the queue-op filter pass
(storage.rs 577-590) extract it: only `MessageContent::Text` is
inspected. -/
def opTaskId (m : ConversationMessage) : Option String :=
  match m.message with
  | some body =>
    match body.content with
    | some (MessageContent.text t) => extract_task_id t
    | _ => none
  | none => none

/-- Accumulator of the line loop of storage.rs `get_conversation` (lines
535-574): regular turn messages, summaries, rewritten queue-operations,
and the task ids seen on real user messages, all in file order. -/
structure GcAcc where
  messages : List ConversationMessage
  summaries : List ConversationMessage
  queueOps : List ConversationMessage
  seen : List String
deriving DecidableEq

/-- The line loop of `get_conversation`. -/
def gcScan (parse : List Char → Option ConversationMessage) :
    List (List Char) → GcAcc
  | [] => { messages := [], summaries := [], queueOps := [], seen := [] }
  | l :: ls =>
    let rest := gcScan parse ls
    if isBlank l then rest
    else
      match parse l with
      | none => rest
      | some msg =>
        if msg.msg_type = "user" ∨ msg.msg_type = "assistant" then
          { rest with
              messages := msg :: rest.messages,
              seen := (if msg.msg_type = "user" then (opTaskId msg).toList else [])
                        ++ rest.seen }
        else if msg.msg_type = "summary" then
          { rest with summaries := msg :: rest.summaries }
        else if msg.msg_type = "queue-operation" then
          match queue_op_to_user_message msg with
          | some m => { rest with queueOps := m :: rest.queueOps }
          | none => rest
        else rest

/-- The queue-op post-filter of `get_conversation` (storage.rs 576-592):
a rewritten queue-operation survives unless its task id was seen on a
real user message in the same read. -/
def keptQueueOps (parse : List Char → Option ConversationMessage)
    (content : List Char) : List ConversationMessage :=
  let acc := gcScan parse (linesOf content)
  acc.queueOps.filter (fun m =>
    match opTaskId m with
    | some tid => !(acc.seen.contains tid)
    | none => true)

/-- storage.rs `get_conversation` (lines 524-597) on a resolved, readable
file: summaries first, then regular messages, then the surviving
rewritten queue-operations. -/
def get_conversation (parse : List Char → Option ConversationMessage)
    (content : List Char) : List ConversationMessage :=
  let acc := gcScan parse (linesOf content)
  acc.summaries ++ (acc.messages ++ keptQueueOps parse content)

/-- A task-notification text used by the C8 evaluation inputs. -/
def cpTaskText : String :=
  "<task-notification><task-id>T1</task-id></task-notification>"

/-- A real user message carrying task id T1. -/
def cpUserMsg : ConversationMessage :=
  { msg_type := "user",
    message := some { role := some "user",
                      content := some (MessageContent.text cpTaskText),
                      model := none, usage := none },
    summary := none, extra := [] }

/-- A raw queue-operation line whose content holds the same
task-notification. -/
def cpQueueRaw : ConversationMessage :=
  { msg_type := "queue-operation", message := none, summary := none,
    extra := [("content", JsonVal.str cpTaskText)] }

/-- The user message `queue_op_to_user_message` produces for
`cpQueueRaw`. -/
def cpQueueRewritten : ConversationMessage :=
  { msg_type := "user",
    message := some { role := some "user",
                      content := some (MessageContent.text cpTaskText),
                      model := none, usage := none },
    summary := none, extra := [("content", JsonVal.str cpTaskText)] }

/-- Concrete parser for the C8 evaluation inputs: line "U" is the real
user message, line "Q" the queue-operation. -/
def cpParse (l : List Char) : Option ConversationMessage :=
  if l = "U".data then some cpUserMsg
  else if l = "Q".data then some cpQueueRaw
  else none

-- ======================================================================
/-- models.rs `HistoryEntry`: one roster-log line.  Timestamps are
modelled as integers (the claims do not depend on fractional time, and
every timestamp the aggregator compares comes from the same clock). -/
structure HistoryEntry where
  display : String
  timestamp : Int
  project : String
  session_id : Option String
deriving DecidableEq

/-- models.rs `Session`, restricted to the fields `get_sessions`
computes.  The pane binding, permission message and question payload are
copied verbatim from per-id maps, are mentioned by no claim, and are
omitted; `status` stands for the per-id status lookup. -/
structure Session where
  id : String
  display : String
  timestamp : Int
  last_activity : Int
  project : String
  project_name : String
  message_count : Nat
  status : Option String
  slug : Option String
  summary : Option String
deriving DecidableEq

/-- The descending last-activity comparison of storage.rs 496
(`b.last_activity.partial_cmp(&a.last_activity)`). -/
@[reducible] def sessionLE (a b : Session) : Prop :=
  b.last_activity ≤ a.last_activity

instance : DecidableRel sessionLE :=
  fun a b => inferInstanceAs (Decidable (b.last_activity ≤ a.last_activity))

instance : IsTotal Session sessionLE :=
  ⟨fun a b => Int.le_total b.last_activity a.last_activity⟩

instance : IsTrans Session sessionLE :=
  ⟨fun _ _ _ hab hbc => le_trans hbc hab⟩

/-- The environment `get_sessions` consults: roster entries (the parsed
history log), the Log Index in iteration order, the hidden set, and the
per-session filesystem and cache queries, abstracted as functions:
`find_session_by_timestamp`, the fallback directory scan of
`find_session_file`, `count_session_messages`, file mtimes and creation
times, the encoded project directory of a path, `get_first_user_message`,
`get_session_slug`, the summary cache and the status map. -/
structure AppEnv where
  entries : List HistoryEntry
  fileIndex : List (String × String)
  hidden : List String
  resolveByTs : String → Int → Option String
  scanFile : String → Option String
  countOf : String → Nat
  mtimeOf : String → Option Int
  createdOf : String → Option Int
  encodedProjectOf : String → String
  firstUserMessage : String → String
  slugOf : String → Option String
  summaryOf : String → Option String
  statusOf : String → Option String

/-- storage.rs `find_session_file`: the index first, then the directory
scan.  (Ids the scan inserts into the index during one `get_sessions`
call were just recorded as seen, so an immutable index yields the same
output; see `get_sessions`.) -/
def find_session_file (env : AppEnv) (sid : String) : Option String :=
  match lookupKey sid env.fileIndex with
  | some p => some p
  | none => env.scanFile sid

/-- Session-id resolution for one roster entry (storage.rs 366-374): the
entry's own id, or the nearest-mtime match inside the encoded project
directory. -/
def resolveEntry (env : AppEnv) (e : HistoryEntry) : Option String :=
  match e.session_id with
  | some sid => some sid
  | none => env.resolveByTs (encode_project_path e.project) e.timestamp

/-- storage.rs `get_project_name`: the last non-empty '/'-separated
segment, or the whole path. -/
def get_project_name (project : String) : String :=
  match ((splitChar '/' project.data).filter (fun l => !l.isEmpty)).getLast? with
  | some l => String.mk l
  | none => project

/-- The display rewrite of storage.rs 403-407. -/
def sessionDisplay (d : String) : String :=
  if containsS d "** Session started from claude-run **" then "New session" else d

/-- One `Session` built from a roster entry (storage.rs 381-424). -/
def mkRosterSession (env : AppEnv) (e : HistoryEntry) (sid : String) : Session :=
  let fp := find_session_file env sid
  { id := sid,
    display := sessionDisplay e.display,
    timestamp := e.timestamp,
    last_activity :=
      match fp with
      | some p => (env.mtimeOf p).getD e.timestamp
      | none => e.timestamp,
    project := e.project,
    project_name := get_project_name e.project,
    message_count := match fp with | some _ => env.countOf sid | none => 0,
    status := env.statusOf sid,
    slug := env.slugOf sid,
    summary := env.summaryOf sid }

/-- One `Session` built from an orphan index entry (storage.rs 427-493):
missing metadata degrades to timestamp 0, and the project is decoded
from the parent directory name of the file path. -/
def mkOrphanSession (env : AppEnv) (sid fp : String) : Session :=
  let project := decode_project_path (env.encodedProjectOf fp)
  { id := sid,
    display := env.firstUserMessage sid,
    timestamp := (env.createdOf fp).getD 0,
    last_activity := (env.mtimeOf fp).getD 0,
    project := project,
    project_name := get_project_name project,
    message_count := env.countOf sid,
    status := env.statusOf sid,
    slug := env.slugOf sid,
    summary := env.summaryOf sid }

/-- The roster pass of `get_sessions` (storage.rs 362-425): resolve each
entry, skip unresolvable entries, duplicate ids and hidden ids, and emit
one session per first occurrence.  Returns the sessions, in roster
order, and the final seen set. -/
def rosterPass (env : AppEnv) :
    List HistoryEntry → List String → List Session × List String
  | [], seen => ([], seen)
  | e :: es, seen =>
    match resolveEntry env e with
    | none => rosterPass env es seen
    | some sid =>
      if sid ∈ seen ∨ sid ∈ env.hidden then rosterPass env es seen
      else
        let r := rosterPass env es (sid :: seen)
        (mkRosterSession env e sid :: r.1, r.2)

/-- The orphan pass of `get_sessions` (storage.rs 427-494): walk the Log
Index, skip seen and hidden ids, record every visited id as seen, and
emit only sessions with at least one conversational line. -/
def orphanPass (env : AppEnv) :
    List (String × String) → List String → List Session
  | [], _ => []
  | (sid, fp) :: rest, seen =>
    if sid ∈ seen ∨ sid ∈ env.hidden then orphanPass env rest seen
    else if env.countOf sid = 0 then orphanPass env rest (sid :: seen)
    else mkOrphanSession env sid fp :: orphanPass env rest (sid :: seen)

/-- storage.rs `get_sessions` (lines 341-498): roster pass, orphan pass,
then a stable sort by last activity descending (`sort_by` is stable;
`List.insertionSort` is the stable sort of the library).  The dirty-flag
branch always ends up with the current roster entries, which the
environment holds directly. -/
def get_sessions (env : AppEnv) : List Session :=
  let p1 := rosterPass env env.entries []
  List.insertionSort sessionLE (p1.1 ++ orphanPass env env.fileIndex p1.2)

/-- Concrete aggregator environment for the evaluation witnesses: a
duplicated roster id, one orphan with two turns, one hidden orphan and
one empty orphan. -/
def sampleAppEnv : AppEnv :=
  { entries := [ { display := "hello", timestamp := 100, project := "/p/a",
                   session_id := some "s1" },
                 { display := "dup", timestamp := 90, project := "/p/a",
                   session_id := some "s1" } ],
    fileIndex := [("s1", "f1"), ("s2", "f2"), ("s3", "f3"), ("s4", "f4")],
    hidden := ["s3"],
    resolveByTs := fun _ _ => none,
    scanFile := fun _ => none,
    countOf := fun sid => if sid = "s2" then 2 else if sid = "s1" then 1 else 0,
    mtimeOf := fun p => if p = "f1" then some 500 else if p = "f2" then some 300 else none,
    createdOf := fun _ => none,
    encodedProjectOf := fun _ => "-p-b",
    firstUserMessage := fun sid => sid,
    slugOf := fun _ => none,
    summaryOf := fun _ => none,
    statusOf := fun _ => none }

-- ======================================================================
/-- The state `delete_session` touches: the roster-log file content
(`None` models a read error), the Log Index, the hidden set, the summary
cache, the roster-cache dirty flag, and the persisted `deleted_sessions`
file (one id per line).  Writes are modelled as succeeding. -/
structure DeleteState where
  historyContent : Option (List Char)
  fileIndex : List (String × String)
  hidden : List String
  summaryCache : List (String × String)
  historyDirty : Bool
  deletedFile : List String
deriving DecidableEq

/-- storage.rs `delete_session` (lines 699-751): drop the roster lines
whose parsed entry carries the id, rewrite the log only when something
was dropped, bail out with `false` when nothing matched and the id is
not in the file index (or the log could not be read), and otherwise
remove the id from the file index, hide it, drop its summary-cache
entry, mark the roster cache dirty, and append the id to the persisted
deleted-ids file.  Roster lines are parsed with `pH`
(`serde_json::from_str::<HistoryEntry>`). -/
def delete_session (pH : List Char → Option HistoryEntry)
    (st : DeleteState) (sid : String) : Bool × DeleteState :=
  match st.historyContent with
  | none => (false, st)
  | some content =>
    let ls := (linesOf content).filter (fun l => !(isBlank l))
    let filtered := ls.filter (fun l =>
        match pH l with
        | some e => !(e.session_id == some sid)
        | none => true)
    let inIdx := (lookupKey sid st.fileIndex).isSome
    if filtered.length = ls.length ∧ inIdx = false then (false, st)
    else
      let st1 :=
        if filtered.length = ls.length then st
        else { st with historyContent := some (joinWith '\n' filtered ++ ['\n']) }
      (true,
       { st1 with
          fileIndex := st1.fileIndex.filter (fun p => !(p.1 == sid)),
          hidden := sid :: st1.hidden,
          summaryCache := st1.summaryCache.filter (fun p => !(p.1 == sid)),
          historyDirty := true,
          deletedFile := st1.deletedFile ++ [sid] })

/-- Deletion state with an empty roster log and an empty index, for the
C6 counterexample. -/
def sampleDeleteState : DeleteState :=
  { historyContent := some [], fileIndex := [], hidden := [],
    summaryCache := [], historyDirty := false, deletedFile := [] }

/-- Roster entries used by the C6 witness. -/
def sampleEntryX : HistoryEntry :=
  { display := "dx", timestamp := 1, project := "/p", session_id := some "x" }

/-- Second roster entry used by the C6 witness. -/
def sampleEntryY : HistoryEntry :=
  { display := "dy", timestamp := 2, project := "/p", session_id := some "y" }

/-- Concrete roster-line parser used by the C6 witness. -/
def samplePH (l : List Char) : Option HistoryEntry :=
  if l = "h1".data then some sampleEntryX
  else if l = "h2".data then some sampleEntryY
  else none

/-- Deletion state holding two roster lines and caches for id "x", for
the C6 witness. -/
def sampleDeleteState2 : DeleteState :=
  { historyContent := some "h1\nh2\n".data, fileIndex := [("x", "fx")],
    hidden := [], summaryCache := [("x", "sum")], historyDirty := false,
    deletedFile := [] }

-- ======================================================================
-- ======================================================================
-- Helper lemmas about the tailer loop
-- ======================================================================

/-- Feeding newline-free bytes to the loop just extends the current line. -/
theorem tailAux_append (parse : List Char → Option ConversationMessage)
    (ys : List Char) :
    ∀ (cur rest : List Char), (∀ c ∈ ys, c ≠ '\n') →
      tailAux parse cur (ys ++ rest) = tailAux parse (cur ++ ys) rest := by
  induction ys with
  | nil => intro cur rest _; simp
  | cons y ys ih =>
    intro cur rest h
    have hy : y ≠ '\n' := h y (List.mem_cons_self y ys)
    have : tailAux parse cur (y :: (ys ++ rest)) = tailAux parse (cur ++ [y]) (ys ++ rest) := by
      simp [tailAux, hy]
    simpa [this, List.append_assoc] using
      ih (cur ++ [y]) rest (fun c hc => h c (List.mem_cons_of_mem y hc))

/-- Dichotomy for the loop: either every byte is consumed (possibly with
one phantom newline charged for a final unterminated line), or the loop
stopped at a parse failure; in the latter case the reported byte count is
a line boundary, re-reading from that boundary fails immediately, and
re-reading only the consumed region reproduces the result exactly. -/
theorem tailAux_consumed (parse : List Char → Option ConversationMessage) :
    ∀ (cs cur : List Char), (∀ c ∈ cur, c ≠ '\n') →
      cur.length + cs.length ≤ (tailAux parse cur cs).2 ∨
      ((tailAux parse cur cs).2 < cur.length + cs.length ∧
       tailAux parse [] ((cur ++ cs).drop (tailAux parse cur cs).2) = ([], 0) ∧
       tailAux parse [] ((cur ++ cs).take (tailAux parse cur cs).2) = tailAux parse cur cs) := by
  intro cs
  induction cs with
  | nil =>
    intro cur hcur
    by_cases hc : cur = []
    · subst hc; left; simp [tailAux]
    · have hdef : tailAux parse cur [] = stepLine parse cur ([], 0) := by
        simp [tailAux, hc]
      by_cases hb : isBlank cur = true
      · left; simp [hdef, stepLine, hb]
      · cases hp : parse cur with
        | some m => left; simp [hdef, stepLine, hb, hp]
        | none =>
          right
          have hres : tailAux parse cur [] = ([], 0) := by simp [hdef, stepLine, hb, hp]
          refine ⟨?_, ?_, ?_⟩
          · simp [hres]
            exact List.length_pos.mpr hc
          · rw [hres]
            simp only [List.drop_zero, List.append_nil]
            have h2 := tailAux_append parse cur [] [] hcur
            simp only [List.append_nil, List.nil_append] at h2
            rw [h2, hres]
          · rw [hres]
            simp [tailAux]
  | cons c cs ih =>
    intro cur hcur
    by_cases hc : c = '\n'
    · subst hc
      have hdef : tailAux parse cur ('\n' :: cs) = stepLine parse cur (tailAux parse [] cs) := by
        simp [tailAux]
      have ihcs := ih [] (by intro c hc; cases hc)
      by_cases hb : isBlank cur = true
      · rcases ihcs with hl | ⟨h1, h2, h3⟩
        · left
          simp only [hdef, stepLine, hb, if_pos, List.length_cons]
          simp at hl
          omega
        · right
          have hval : tailAux parse cur ('\n' :: cs) =
              ((tailAux parse [] cs).1, cur.length + 1 + (tailAux parse [] cs).2) := by
            simp [hdef, stepLine, hb]
          refine ⟨?_, ?_, ?_⟩
          · simp [hval]; simp at h1; omega
          · have harr : (cur ++ '\n' :: cs) = (cur ++ ['\n']) ++ cs := by simp
            have hlen : (cur ++ ['\n']).length = cur.length + 1 := by simp
            have : (cur ++ '\n' :: cs).drop (cur.length + 1 + (tailAux parse [] cs).2)
                = cs.drop (tailAux parse [] cs).2 := by
              rw [harr]
              rw [show cur.length + 1 + (tailAux parse [] cs).2
                    = (cur ++ ['\n']).length + (tailAux parse [] cs).2 by simp]
              rw [List.drop_append]
            simpa [hval, this] using h2
          · have : (cur ++ '\n' :: cs).take (cur.length + 1 + (tailAux parse [] cs).2)
                = cur ++ '\n' :: cs.take (tailAux parse [] cs).2 := by
              rw [show (cur ++ '\n' :: cs) = (cur ++ ['\n']) ++ cs by simp]
              rw [show cur.length + 1 + (tailAux parse [] cs).2
                    = (cur ++ ['\n']).length + (tailAux parse [] cs).2 by simp]
              rw [List.take_append]
              simp
            rw [hval, this]
            rw [tailAux_append parse cur [] ('\n' :: cs.take (tailAux parse [] cs).2) hcur]
            simp only [List.nil_append]
            have : tailAux parse cur ('\n' :: cs.take (tailAux parse [] cs).2)
                = stepLine parse cur (tailAux parse [] (cs.take (tailAux parse [] cs).2)) := by
              simp [tailAux]
            rw [this]
            simp at h3
            rw [h3]
            simp [stepLine, hb]
      · cases hp : parse cur with
        | some m =>
          rcases ihcs with hl | ⟨h1, h2, h3⟩
          · left
            simp only [hdef, stepLine, hb, hp, List.length_cons]
            simp at hl ⊢
            omega
          · right
            have hval : tailAux parse cur ('\n' :: cs) =
                (emitMsg m ++ (tailAux parse [] cs).1,
                 cur.length + 1 + (tailAux parse [] cs).2) := by
              simp [hdef, stepLine, hb, hp]
            refine ⟨?_, ?_, ?_⟩
            · simp [hval]; simp at h1; omega
            · have : (cur ++ '\n' :: cs).drop (cur.length + 1 + (tailAux parse [] cs).2)
                  = cs.drop (tailAux parse [] cs).2 := by
                rw [show (cur ++ '\n' :: cs) = (cur ++ ['\n']) ++ cs by simp]
                rw [show cur.length + 1 + (tailAux parse [] cs).2
                      = (cur ++ ['\n']).length + (tailAux parse [] cs).2 by simp]
                rw [List.drop_append]
              simpa [hval, this] using h2
            · have harr : (cur ++ '\n' :: cs).take (cur.length + 1 + (tailAux parse [] cs).2)
                  = cur ++ '\n' :: cs.take (tailAux parse [] cs).2 := by
                rw [show (cur ++ '\n' :: cs) = (cur ++ ['\n']) ++ cs by simp]
                rw [show cur.length + 1 + (tailAux parse [] cs).2
                      = (cur ++ ['\n']).length + (tailAux parse [] cs).2 by simp]
                rw [List.take_append]
                simp
              rw [hval, harr]
              rw [tailAux_append parse cur [] ('\n' :: cs.take (tailAux parse [] cs).2) hcur]
              simp only [List.nil_append]
              have : tailAux parse cur ('\n' :: cs.take (tailAux parse [] cs).2)
                  = stepLine parse cur (tailAux parse [] (cs.take (tailAux parse [] cs).2)) := by
                simp [tailAux]
              rw [this]
              simp at h3
              rw [h3]
              simp [stepLine, hb, hp]
        | none =>
          right
          have hres : tailAux parse cur ('\n' :: cs) = ([], 0) := by
            simp [hdef, stepLine, hb, hp]
          refine ⟨?_, ?_, ?_⟩
          · simp [hres]
          · rw [hres]
            simp only [List.drop_zero]
            rw [tailAux_append parse cur [] ('\n' :: cs) hcur]
            simp only [List.nil_append]
            simp [tailAux, stepLine, hb, hp]
          · rw [hres]
            simp [tailAux]
    · have hdef : tailAux parse cur (c :: cs) = tailAux parse (cur ++ [c]) cs := by
        simp [tailAux, hc]
      have hcur' : ∀ x ∈ cur ++ [c], x ≠ '\n' := by
        intro x hx
        rcases List.mem_append.mp hx with h | h
        · exact hcur x h
        · simp at h; subst h; exact hc
      have := ih (cur ++ [c]) hcur'
      rw [hdef]
      have harr : (cur ++ [c]) ++ cs = cur ++ c :: cs := by simp
      have hlen : (cur ++ [c]).length + cs.length = cur.length + (c :: cs).length := by
        simp; omega
      rcases this with hl | ⟨h1, h2, h3⟩
      · left; omega
      · right
        refine ⟨by omega, ?_, ?_⟩
        · rw [← harr]; exact h2
        · rw [← harr]; exact h3

/-- The head of a non-empty `dropWhile` result fails the predicate. -/
theorem dropWhile_head_false {p : Char → Bool} :
    ∀ (cs : List Char) (d : Char) (ds : List Char),
      List.dropWhile p cs = d :: ds → p d = false := by
  intro cs
  induction cs with
  | nil => intro d ds h; simp [List.dropWhile] at h
  | cons c cs ih =>
    intro d ds h
    by_cases hpc : p c
    · rw [List.dropWhile_cons_of_pos hpc] at h
      exact ih d ds h
    · rw [List.dropWhile_cons_of_neg hpc] at h
      cases h
      simpa using hpc

/-- If the loop consumed nothing from a non-empty tail, its first line is
non-blank and fails to parse. -/
theorem tailAux_stuck (parse : List Char → Option ConversationMessage)
    (cs : List Char) (hne : cs ≠ [])
    (h : tailAux parse [] cs = ([], 0)) :
    isBlank (cs.takeWhile (fun c => c != '\n')) = false ∧
    parse (cs.takeWhile (fun c => c != '\n')) = none := by
  have hflnl : ∀ c ∈ cs.takeWhile (fun c => c != '\n'), c ≠ '\n' := by
    intro c hcmem
    have := List.mem_takeWhile_imp hcmem
    simpa using this
  have hsplit : cs.takeWhile (fun c => c != '\n') ++ cs.dropWhile (fun c => c != '\n') = cs :=
    List.takeWhile_append_dropWhile (fun c => c != '\n') cs
  cases hd : cs.dropWhile (fun c => c != '\n') with
  | nil =>
    have hcs : cs = cs.takeWhile (fun c => c != '\n') := by
      conv_lhs => rw [← hsplit]
      rw [hd, List.append_nil]
    have hflne : cs.takeWhile (fun c => c != '\n') ≠ [] := by rw [← hcs]; exact hne
    have happ := tailAux_append parse (cs.takeWhile (fun c => c != '\n')) [] [] hflnl
    simp only [List.append_nil, List.nil_append] at happ
    rw [hcs] at h
    rw [happ] at h
    rw [show tailAux parse (cs.takeWhile (fun c => c != '\n')) []
          = stepLine parse (cs.takeWhile (fun c => c != '\n')) ([], 0) by
        simp [tailAux, hflne]] at h
    cases hb : isBlank (cs.takeWhile (fun c => c != '\n')) with
    | true => simp [stepLine, hb] at h
    | false =>
      cases hp : parse (cs.takeWhile (fun c => c != '\n')) with
      | some m => simp [stepLine, hb, hp] at h
      | none => exact ⟨rfl, rfl⟩
  | cons d ds =>
    have hdnl : d = '\n' := by
      have := dropWhile_head_false (p := fun c => c != '\n') cs d ds hd
      simpa using this
    subst hdnl
    have hcs : cs = cs.takeWhile (fun c => c != '\n') ++ '\n' :: ds := by
      conv_lhs => rw [← hsplit]
      rw [hd]
    have happ := tailAux_append parse (cs.takeWhile (fun c => c != '\n')) [] ('\n' :: ds) hflnl
    simp only [List.nil_append] at happ
    rw [hcs] at h
    rw [happ] at h
    rw [show tailAux parse (cs.takeWhile (fun c => c != '\n')) ('\n' :: ds)
          = stepLine parse (cs.takeWhile (fun c => c != '\n')) (tailAux parse [] ds) by
        simp [tailAux]] at h
    cases hb : isBlank (cs.takeWhile (fun c => c != '\n')) with
    | true => simp [stepLine, hb] at h
    | false =>
      cases hp : parse (cs.takeWhile (fun c => c != '\n')) with
      | some m => simp [stepLine, hb, hp] at h
      | none => exact ⟨rfl, rfl⟩

/-- Completing a previously unparseable trailing line and terminating it
with a newline makes the loop emit exactly that line's message first, then
continue with the rest. -/
theorem tailAux_resume (parse : List Char → Option ConversationMessage)
    (pre addText more : List Char) (m : ConversationMessage)
    (hpre : ∀ c ∈ pre, c ≠ '\n') (hadd : ∀ c ∈ addText, c ≠ '\n')
    (hblank : isBlank (pre ++ addText) = false)
    (hparse : parse (pre ++ addText) = some m) :
    tailAux parse [] (pre ++ (addText ++ '\n' :: more))
      = (emitMsg m ++ (tailAux parse [] more).1,
         (pre ++ addText).length + 1 + (tailAux parse [] more).2) := by
  have hboth : ∀ c ∈ pre ++ addText, c ≠ '\n' := by
    intro c hcmem
    rcases List.mem_append.mp hcmem with hx | hx
    · exact hpre c hx
    · exact hadd c hx
  have happ := tailAux_append parse (pre ++ addText) [] ('\n' :: more) hboth
  simp only [List.nil_append] at happ
  rw [← List.append_assoc]
  rw [happ]
  rw [show tailAux parse (pre ++ addText) ('\n' :: more)
        = stepLine parse (pre ++ addText) (tailAux parse [] more) by simp [tailAux]]
  simp [stepLine, hblank, hparse]

/-- Unfolding of the tailer on an in-range offset. -/
theorem stream_ok_eq (parse : List Char → Option ConversationMessage)
    (content : List Char) (fo : Nat) (h : fo < content.length) :
    get_conversation_stream parse (FileAccess.ok content) fo
      = { messages := (tailAux parse [] (content.drop fo)).1,
          next_offset :=
            if content.length < fo + (tailAux parse [] (content.drop fo)).2
            then content.length
            else fo + (tailAux parse [] (content.drop fo)).2 } := by
  have hnot : ¬ fo ≥ content.length := Nat.not_le.mpr h
  simp only [get_conversation_stream, hnot, if_false, gt_iff_lt]

/-- Unfolding of the tailer on an out-of-range offset. -/
theorem stream_ok_high (parse : List Char → Option ConversationMessage)
    (content : List Char) (fo : Nat) (h : content.length ≤ fo) :
    get_conversation_stream parse (FileAccess.ok content) fo
      = { messages := [], next_offset := fo } := by
  have hge : fo ≥ content.length := h
  simp only [get_conversation_stream, hge, if_true, ge_iff_le, if_pos]

/-- Against a fixed file, a call at the offset returned by any previous
call is a no-op: it returns no messages and the same offset again. -/
theorem stream_fixpoint (parse : List Char → Option ConversationMessage)
    (content : List Char) (fo : Nat) :
    get_conversation_stream parse (FileAccess.ok content)
        ((get_conversation_stream parse (FileAccess.ok content) fo).next_offset)
      = { messages := [],
          next_offset := (get_conversation_stream parse (FileAccess.ok content) fo).next_offset } := by
  by_cases h : fo < content.length
  · rw [stream_ok_eq parse content fo h]
    rcases tailAux_consumed parse (content.drop fo) [] (by intro c hc; cases hc)
      with hl | ⟨h1, h2, h3⟩
    · have hlen : (content.drop fo).length = content.length - fo := by simp
      simp only [List.length_nil, Nat.zero_add, hlen] at hl
      have hnext : (if content.length < fo + (tailAux parse [] (content.drop fo)).2
          then content.length else fo + (tailAux parse [] (content.drop fo)).2)
          = content.length := by split <;> omega
      rw [hnext]
      exact stream_ok_high parse content content.length (Nat.le_refl _)
    · simp only [List.length_nil, Nat.zero_add, List.nil_append] at h1 h2 h3
      have hlen : (content.drop fo).length = content.length - fo := by simp
      rw [hlen] at h1
      have hnext : (if content.length < fo + (tailAux parse [] (content.drop fo)).2
          then content.length else fo + (tailAux parse [] (content.drop fo)).2)
          = fo + (tailAux parse [] (content.drop fo)).2 := by split <;> omega
      rw [hnext]
      have hfo2 : fo + (tailAux parse [] (content.drop fo)).2 < content.length := by omega
      rw [stream_ok_eq parse content (fo + (tailAux parse [] (content.drop fo)).2) hfo2]
      have hdd : content.drop (fo + (tailAux parse [] (content.drop fo)).2)
          = (content.drop fo).drop (tailAux parse [] (content.drop fo)).2 := by
        rw [List.drop_drop]
      rw [hdd, h2]
      simp
      omega
  · have hge : content.length ≤ fo := Nat.not_lt.mp h
    rw [stream_ok_high parse content fo hge]
    exact stream_ok_high parse content fo hge

/-- Once a call is a fixpoint, every further chained call emits nothing. -/
theorem tailCalls_fixpoint (parse : List Char → Option ConversationMessage)
    (file : FileAccess) (off : Nat)
    (h : get_conversation_stream parse file off = { messages := [], next_offset := off }) :
    ∀ n, tailCalls parse file n off = [] := by
  intro n
  induction n with
  | zero => simp [tailCalls]
  | succ n ih => simp [tailCalls, h, ih]

-- ======================================================================
-- Claim theorems: incremental tailer (C1, C2, C3, C10)
-- ======================================================================

/-- C3: for every parser, file content and `from_offset` at least the
current file size, `get_conversation_stream` returns an empty message
list and `next_offset` equal to the `from_offset` passed in — a
successful no-op, not an error (the function has no error outcome). -/
theorem c3_offset_beyond_size_is_noop
    (parse : List Char → Option ConversationMessage)
    (content : List Char) (fo : Nat) (h : content.length ≤ fo) :
    get_conversation_stream parse (FileAccess.ok content) fo
      = { messages := [], next_offset := fo } :=
  stream_ok_high parse content fo h

/-- Witness for C3 at a concrete file and offset. -/
theorem c3_offset_beyond_size_is_noop_witness :
    ("ab".data).length ≤ 5 ∧
    get_conversation_stream sampleParse (FileAccess.ok "ab".data) 5
      = { messages := [], next_offset := 5 } :=
  ⟨by decide, c3_offset_beyond_size_is_noop sampleParse "ab".data 5 (by decide)⟩

/-- C10: when the session id does not resolve to a backing file,
`get_conversation_stream` returns `next_offset = 0`, silently resetting
the caller's cursor; when the file resolves but cannot be opened or its
metadata cannot be read, the caller's `from_offset` is preserved. -/
theorem c10_unresolved_resets_cursor_io_error_preserves
    (parse : List Char → Option ConversationMessage) (fo : Nat) :
    get_conversation_stream parse FileAccess.noFile fo
      = { messages := [], next_offset := 0 } ∧
    get_conversation_stream parse FileAccess.openError fo
      = { messages := [], next_offset := fo } ∧
    get_conversation_stream parse FileAccess.metadataError fo
      = { messages := [], next_offset := fo } :=
  ⟨rfl, rfl, rfl⟩

/-- C2: against a fixed file, one call at offset 0 followed by any number
of chained calls at each returned `next_offset`, all message batches
concatenated in order, yields exactly the messages of the single call at
offset 0: chunked reads neither duplicate nor drop anything. -/
theorem c2_chunked_reads_equal_single_read
    (parse : List Char → Option ConversationMessage)
    (content : List Char) (n : Nat) :
    tailCalls parse (FileAccess.ok content) (n + 1) 0
      = (get_conversation_stream parse (FileAccess.ok content) 0).messages := by
  have hfix := stream_fixpoint parse content 0
  have hrest := tailCalls_fixpoint parse (FileAccess.ok content)
    ((get_conversation_stream parse (FileAccess.ok content) 0).next_offset) hfix n
  simp [tailCalls, hrest]

/-- Witness for C2 at a concrete file (two complete lines, one
unterminated trailing line). -/
theorem c2_chunked_reads_equal_single_read_witness :
    tailCalls sampleParse (FileAccess.ok "u1\na1\nbad".data) 3 0
      = (get_conversation_stream sampleParse (FileAccess.ok "u1\na1\nbad".data) 0).messages :=
  c2_chunked_reads_equal_single_read sampleParse "u1\na1\nbad".data 2

/-- C1: if the tailer stops before the end of the file, then it stopped
at a non-blank line that fails to parse, the returned offset lies at the
start of that line and past the caller's offset, re-reading only the
fully consumed region reproduces the very same messages and offset (so
nothing after the failing line was emitted), and once the unterminated
trailing line is completed on disk so that it parses, a call at the
returned offset emits exactly that line's message first — nothing is
lost. -/
theorem c1_parse_failure_stops_and_resumes
    (parse : List Char → Option ConversationMessage)
    (content : List Char) (fo b : Nat)
    (hfo : fo < content.length)
    (hb : b = (get_conversation_stream parse (FileAccess.ok content) fo).next_offset)
    (hstop : b < content.length) :
    (isBlank ((content.drop b).takeWhile (fun c => c != '\n')) = false ∧
     parse ((content.drop b).takeWhile (fun c => c != '\n')) = none) ∧
    fo ≤ b ∧
    get_conversation_stream parse (FileAccess.ok (content.take b)) fo
      = { messages := (get_conversation_stream parse (FileAccess.ok content) fo).messages,
          next_offset := b } ∧
    (∀ (addText more : List Char) (m : ConversationMessage),
       content.drop b = (content.drop b).takeWhile (fun c => c != '\n') →
       (∀ c ∈ addText, c ≠ '\n') →
       parse (content.drop b ++ addText) = some m →
       (get_conversation_stream parse
          (FileAccess.ok (content ++ (addText ++ '\n' :: more))) b).messages
         = emitMsg m ++ (tailAux parse [] more).1) := by
  have hb2 : b = if content.length < fo + (tailAux parse [] (content.drop fo)).2
      then content.length else fo + (tailAux parse [] (content.drop fo)).2 := by
    rw [hb, stream_ok_eq parse content fo hfo]
  have hmsg : (get_conversation_stream parse (FileAccess.ok content) fo).messages
      = (tailAux parse [] (content.drop fo)).1 := by
    rw [stream_ok_eq parse content fo hfo]
  have hlen : (content.drop fo).length = content.length - fo := by simp
  rcases tailAux_consumed parse (content.drop fo) [] (by intro c hc; cases hc)
    with hl | ⟨h1, h2, h3⟩
  · exfalso
    simp only [List.length_nil, Nat.zero_add] at hl
    rw [hlen] at hl
    have : b = content.length := by rw [hb2]; split <;> omega
    omega
  · simp only [List.length_nil, Nat.zero_add, List.nil_append] at h1 h2 h3
    rw [hlen] at h1
    have hbval : b = fo + (tailAux parse [] (content.drop fo)).2 := by
      rw [hb2]; split <;> omega
    have hdd : content.drop b = (content.drop fo).drop (tailAux parse [] (content.drop fo)).2 := by
      rw [hbval, List.drop_drop]
    have hstuck := tailAux_stuck parse (content.drop b)
      (by
        intro hnil
        have hz : (content.drop b).length = 0 := by rw [hnil]; rfl
        simp at hz
        omega)
      (by rw [hdd]; exact h2)
    refine ⟨hstuck, by omega, ?_, ?_⟩
    · -- re-reading the fully consumed region only
      by_cases hz : (tailAux parse [] (content.drop fo)).2 = 0
      · -- failure at the very first line: nothing was consumed or emitted
        have hbfo : b = fo := by omega
        have hmsgnil : (tailAux parse [] (content.drop fo)).1 = [] := by
          have h3' := h3
          rw [hz] at h3'
          simp only [List.take_zero] at h3'
          have hnil : tailAux parse [] ([] : List Char)
              = (([] : List ConversationMessage), 0) := by simp [tailAux]
          rw [hnil] at h3'
          exact (congrArg Prod.fst h3').symm
        rw [stream_ok_high parse (content.take b) fo
            (by rw [List.length_take]; omega)]
        rw [hmsg, hmsgnil, hbfo]
      · have hfob : fo < b := by omega
        have htklen : (content.take b).length = b := by
          rw [List.length_take]; omega
        rw [stream_ok_eq parse (content.take b) fo (by omega)]
        have hregion : (content.take b).drop fo
            = (content.drop fo).take (tailAux parse [] (content.drop fo)).2 := by
          rw [List.drop_take]
          congr 1
          omega
        rw [hregion, h3, hmsg, htklen]
        have hcond : ¬ b < fo + (tailAux parse [] (content.drop fo)).2 := by omega
        simp only [hcond, if_false]
        rw [hbval]
    · -- resumption after the trailing line is completed
      intro addText more m hnl hadd hparse
      have hpre : ∀ c ∈ content.drop b, c ≠ '\n' := by
        intro c hcmem
        rw [hnl] at hcmem
        have := List.mem_takeWhile_imp hcmem
        simpa using this
      have hblank2 : isBlank (content.drop b ++ addText) = false := by
        have hbl : isBlank (content.drop b) = false := by rw [hnl]; exact hstuck.1
        simp only [isBlank, List.all_append] at hbl ⊢
        simp [hbl]
      have hdrop : (content ++ (addText ++ '\n' :: more)).drop b
          = content.drop b ++ (addText ++ '\n' :: more) := by
        rw [List.drop_append_of_le_length (by omega)]
      have hlen2 : b < (content ++ (addText ++ '\n' :: more)).length := by
        simp; omega
      have hmsg3 : (get_conversation_stream parse
            (FileAccess.ok (content ++ (addText ++ '\n' :: more))) b).messages
          = (tailAux parse [] ((content ++ (addText ++ '\n' :: more)).drop b)).1 := by
        rw [stream_ok_eq parse (content ++ (addText ++ '\n' :: more)) b hlen2]
      rw [hmsg3, hdrop,
        tailAux_resume parse (content.drop b) addText more m hpre hadd hblank2 hparse]

/-- Witness for C1: the file "u1\nbad" stops at offset 3 ("bad" does not
parse); after completing the line to "bad!" and terminating it, the next
call at offset 3 yields exactly that line's message. -/
theorem c1_parse_failure_stops_and_resumes_witness :
    (0 < ("u1\nbad".data).length ∧
     3 = (get_conversation_stream sampleParse (FileAccess.ok "u1\nbad".data) 0).next_offset ∧
     3 < ("u1\nbad".data).length) ∧
    sampleParse (("u1\nbad".data.drop 3).takeWhile (fun c => c != '\n')) = none ∧
    (get_conversation_stream sampleParse
        (FileAccess.ok ("u1\nbad".data ++ ("!".data ++ '\n' :: ([] : List Char)))) 3).messages
      = emitMsg (sampleMsg "user") ++ (tailAux sampleParse [] []).1 := by
  have h := c1_parse_failure_stops_and_resumes sampleParse "u1\nbad".data 0 3
    (by decide) (by decide) (by decide)
  exact ⟨⟨by decide, by decide, by decide⟩, h.1.2,
    h.2.2.2 "!".data [] (sampleMsg "user") (by decide) (by decide) (by decide)⟩

-- ======================================================================
-- Claim theorems: project-path encoding (C9) and count cache (C4)
-- ======================================================================

/-- C9: encoding replaces every '/' and '.' by '-' (the encoded name
contains neither), decoding restores only separators, so a path starting
with '/' and containing neither '.' nor '-' round-trips exactly, while a
path containing the filler character does not — the round trip is lossy
exactly as documented. -/
theorem c9_project_path_encoding_lossy_round_trip
    (p : String) (h0 : p.data.head? = some '/')
    (hdot : '.' ∉ p.data) (hdash : '-' ∉ p.data) :
    (('/' ∉ (encode_project_path p).data) ∧ ('.' ∉ (encode_project_path p).data)) ∧
    decode_project_path (encode_project_path p) = p ∧
    decode_project_path (encode_project_path "/a-b") ≠ "/a-b" := by
  obtain ⟨rest, hp⟩ : ∃ rest, p.data = '/' :: rest := by
    cases hpd : p.data with
    | nil => rw [hpd] at h0; simp at h0
    | cons c cs =>
      rw [hpd] at h0
      simp at h0
      exact ⟨cs, by rw [h0]⟩
  have hdata : (encode_project_path p).data
      = p.data.map (fun c => if c = '/' ∨ c = '.' then '-' else c) := rfl
  refine ⟨⟨?_, ?_⟩, ?_, by decide⟩
  · intro hmem
    rw [hdata] at hmem
    rcases List.mem_map.mp hmem with ⟨c, hcmem, hfc⟩
    by_cases hcase : c = '/' ∨ c = '.'
    · simp [hcase] at hfc
    · simp [hcase] at hfc
      subst hfc
      exact hcase (Or.inl rfl)
  · intro hmem
    rw [hdata] at hmem
    rcases List.mem_map.mp hmem with ⟨c, hcmem, hfc⟩
    by_cases hcase : c = '/' ∨ c = '.'
    · simp [hcase] at hfc
    · simp [hcase] at hfc
      subst hfc
      exact hcase (Or.inr rfl)
  · have hhead : (encode_project_path p).data.head? = some '-' := by
      rw [hdata, hp]
      simp
    rw [decode_project_path, if_pos hhead, hdata]
    rw [List.map_map]
    have hfix : ∀ c ∈ p.data,
        ((fun c => if c = '-' then '/' else c) ∘
         (fun c => if c = '/' ∨ c = '.' then '-' else c)) c = c := by
      intro c hcmem
      by_cases hsl : c = '/'
      · simp [hsl]
      · have hnd : ¬ (c = '/' ∨ c = '.') := by
          rintro (h | h)
          · exact hsl h
          · exact hdot (h ▸ hcmem)
        have hnm : c ≠ '-' := fun h => hdash (h ▸ hcmem)
        simp [hnd, hnm]
    rw [List.map_congr_left hfix]
    have : List.map (fun a => a) p.data = p.data := List.map_id' p.data
    rw [this]

/-- Witness for C9 at the concrete path "/usr/lib". -/
theorem c9_project_path_encoding_lossy_round_trip_witness :
    ("/usr/lib".data.head? = some '/' ∧ '.' ∉ "/usr/lib".data ∧ '-' ∉ "/usr/lib".data) ∧
    decode_project_path (encode_project_path "/usr/lib") = "/usr/lib" := by
  have h := c9_project_path_encoding_lossy_round_trip "/usr/lib"
    (by decide) (by decide) (by decide)
  exact ⟨⟨by decide, by decide, by decide⟩, h.2.1⟩

/-- C4: with a cached (count, size) pair whose size matches the current
file size, `count_session_messages` returns the cached count without
reading file content and leaves the cache unchanged; with no cache entry
or any size mismatch (grown or shrunk), it reads the content, counts
exactly the non-blank lines whose parsed type is "user" or "assistant",
stores the new (count, size) pair, and returns that count. -/
theorem c4_count_cache_hit_and_recompute
    (jsonType : List Char → Option String)
    (content : List Char) (cache : Option (Nat × Nat)) :
    (∀ c s, cache = some (c, s) → s = content.length →
        count_session_messages jsonType content cache = (c, some (c, s), false)) ∧
    ((∀ c s, cache = some (c, s) → s ≠ content.length) →
        count_session_messages jsonType content cache
          = (count_messages jsonType content,
             some (count_messages jsonType content, content.length), true)) := by
  constructor
  · intro c s hc hs
    subst hc
    simp [count_session_messages, hs]
  · intro hmis
    cases cache with
    | none => rfl
    | some cs =>
      have hne := hmis cs.1 cs.2 rfl
      simp [count_session_messages, hne]

/-- Witness for C4: a matching size returns the cached count with no
read; a stale size forces a recount (two turns) and a cache update. -/
theorem c4_count_cache_hit_and_recompute_witness :
    count_session_messages sampleJsonType "u\na\nm".data (some (7, 5))
      = (7, some (7, 5), false) ∧
    count_session_messages sampleJsonType "u\na\nm".data (some (7, 9))
      = (2, some (2, 5), true) := by
  constructor
  · exact (c4_count_cache_hit_and_recompute sampleJsonType "u\na\nm".data
      (some (7, 5))).1 7 5 rfl (by decide)
  · have h := (c4_count_cache_hit_and_recompute sampleJsonType "u\na\nm".data
      (some (7, 9))).2 (by intro c s hcs; injection hcs with h; cases h; decide)
    rw [h]
    decide

-- ======================================================================
-- Claim theorem: watcher classification (C7)
-- ======================================================================

/-- C7: a debounced path ending in the roster-log name sets the
roster-cache dirty flag and broadcasts a roster-changed notification;
otherwise a path ending in ".jsonl" outside any "subagents" subdirectory
inserts (file-stem session id, path) into the Log Index and broadcasts a
session-changed notification carrying that id and path; every other path
changes no state and sends nothing. -/
theorem c7_watcher_path_classification (st : WatchState) (path : String) :
    (endsWithS path "history.jsonl" = true →
       emit_change st path
         = ({ st with historyDirty := true }, [Notification.historyChanged])) ∧
    (endsWithS path "history.jsonl" = false →
     endsWithS path ".jsonl" = true →
     containsS path "/subagents/" = false →
     ∀ sid, file_stem path = some sid →
       emit_change st path
         = ({ st with fileIndex := (sid, path) :: st.fileIndex },
            [Notification.sessionChanged sid path])) ∧
    (endsWithS path "history.jsonl" = false →
     (endsWithS path ".jsonl" = false ∨ containsS path "/subagents/" = true) →
       emit_change st path = (st, [])) := by
  refine ⟨?_, ?_, ?_⟩
  · intro h
    simp [emit_change, h]
  · intro h1 h2 h3 sid hsid
    simp [emit_change, h1, h2, h3, hsid]
  · intro h1 h2
    rcases h2 with h2 | h2 <;> simp [emit_change, h1, h2]

/-- Witness for C7 on three concrete paths: the roster log, a session
log, and a subagent log. -/
theorem c7_watcher_path_classification_witness :
    emit_change sampleWatchState "/home/u/.claude/history.jsonl"
      = ({ sampleWatchState with historyDirty := true }, [Notification.historyChanged]) ∧
    emit_change sampleWatchState "/home/u/.claude/projects/-a/s1.jsonl"
      = ({ sampleWatchState with
            fileIndex := [("s1", "/home/u/.claude/projects/-a/s1.jsonl")] },
         [Notification.sessionChanged "s1" "/home/u/.claude/projects/-a/s1.jsonl"]) ∧
    emit_change sampleWatchState "/home/u/.claude/projects/-a/s1/subagents/agent-7.jsonl"
      = (sampleWatchState, []) := by
  refine ⟨?_, ?_, ?_⟩
  · exact (c7_watcher_path_classification sampleWatchState
      "/home/u/.claude/history.jsonl").1 (by decide)
  · exact (c7_watcher_path_classification sampleWatchState
      "/home/u/.claude/projects/-a/s1.jsonl").2.1 (by decide) (by decide) (by decide)
      "s1" (by decide)
  · exact (c7_watcher_path_classification sampleWatchState
      "/home/u/.claude/projects/-a/s1/subagents/agent-7.jsonl").2.2 (by decide)
      (Or.inr (by decide))

-- ======================================================================
-- Helper lemmas and claim theorems: queue-op de-duplication (C8)
-- ======================================================================

/-- Characterization of the seen-task-id set: a task id is recorded iff
some non-blank line of the read parses to a user message whose text
carries that id. -/
theorem gcScan_seen_iff (parse : List Char → Option ConversationMessage)
    (tid : String) :
    ∀ ls : List (List Char),
      tid ∈ (gcScan parse ls).seen ↔
      ∃ l ∈ ls, isBlank l = false ∧ ∃ msg, parse l = some msg ∧
        msg.msg_type = "user" ∧ opTaskId msg = some tid := by
  intro ls
  induction ls with
  | nil => simp [gcScan]
  | cons l ls ih =>
    by_cases hb : isBlank l = true
    · simp [gcScan, hb, ih]
    · have hb' : isBlank l = false := by
        cases hx : isBlank l
        · rfl
        · exact absurd hx hb
      cases hp : parse l with
      | none => simp [gcScan, hb', hp, ih]
      | some msg =>
        by_cases hu : msg.msg_type = "user"
        · simp [gcScan, hb', hp, hu, ih]
        · by_cases ha : msg.msg_type = "assistant"
          · simp [gcScan, hb', hp, hu, ha, ih]
          · by_cases hs : msg.msg_type = "summary"
            · simp [gcScan, hb', hp, hu, ha, hs, ih]
            · by_cases hq : msg.msg_type = "queue-operation"
              · cases hqo : queue_op_to_user_message msg <;>
                  simp [gcScan, hb', hp, hu, ha, hs, hq, hqo, ih]
              · simp [gcScan, hb', hp, hu, ha, hs, hq, ih]

/-- A surviving queue-op's task id was never recorded as seen. -/
theorem mem_keptQueueOps_not_seen (parse : List Char → Option ConversationMessage)
    (content : List Char) (m : ConversationMessage) (tid : String)
    (hm : m ∈ keptQueueOps parse content) (ht : opTaskId m = some tid) :
    tid ∉ (gcScan parse (linesOf content)).seen := by
  have hp := List.of_mem_filter hm
  rw [ht] at hp
  simpa using hp

/-- C8 (amended): in a full-conversation read, a rewritten
queue-operation message survives to the output only if no real user
message anywhere in the same read carries the same task id; whenever a
real user message does carry it, the queue-op message is dropped.  (The
incremental tailer performs no such de-duplication; see the
counterexample.) -/
theorem c8_full_read_first_writer_wins
    (parse : List Char → Option ConversationMessage) (content : List Char) :
    (∀ m ∈ keptQueueOps parse content, m ∈ get_conversation parse content) ∧
    (∀ m ∈ keptQueueOps parse content, ∀ tid, opTaskId m = some tid →
        ¬ ∃ l ∈ linesOf content, isBlank l = false ∧ ∃ msg, parse l = some msg ∧
            msg.msg_type = "user" ∧ opTaskId msg = some tid) ∧
    (∀ m ∈ (gcScan parse (linesOf content)).queueOps, ∀ tid, opTaskId m = some tid →
        (∃ l ∈ linesOf content, isBlank l = false ∧ ∃ msg, parse l = some msg ∧
            msg.msg_type = "user" ∧ opTaskId msg = some tid) →
        m ∉ keptQueueOps parse content) := by
  refine ⟨?_, ?_, ?_⟩
  · intro m hm
    simp only [get_conversation, List.mem_append]
    exact Or.inr (Or.inr hm)
  · intro m hm tid ht hex
    exact mem_keptQueueOps_not_seen parse content m tid hm ht
      ((gcScan_seen_iff parse tid (linesOf content)).mpr hex)
  · intro m _ tid ht hex hkept
    exact mem_keptQueueOps_not_seen parse content m tid hkept ht
      ((gcScan_seen_iff parse tid (linesOf content)).mpr hex)

/-- Witness for the amended C8.  In "Q\n" (no user message) the queue-op
survives into the output; in "U\nQ\n" the earlier real user message with
the same task id makes the full read drop it. -/
theorem c8_full_read_first_writer_wins_witness :
    cpQueueRewritten ∈ get_conversation cpParse "Q\n".data ∧
    cpQueueRewritten ∉ keptQueueOps cpParse "U\nQ\n".data := by
  constructor
  · exact (c8_full_read_first_writer_wins cpParse "Q\n".data).1
      cpQueueRewritten (by decide)
  · exact (c8_full_read_first_writer_wins cpParse "U\nQ\n".data).2.2
      cpQueueRewritten (by decide) "T1" (by decide)
      ⟨"U".data, by decide, by decide, cpUserMsg, by decide, by decide, by decide⟩

/-- C8 counterexample (claim as stated is false for the incremental
tailer): in the single read of "U\nQ\n", the queue-operation line is
rewritten and emitted even though a real user message carrying the same
task id T1 was seen earlier in the same read. -/
theorem c8_stream_counterexample :
    cpQueueRaw.msg_type = "queue-operation" ∧
    queue_op_to_user_message cpQueueRaw = some cpQueueRewritten ∧
    cpUserMsg.msg_type = "user" ∧
    opTaskId cpUserMsg = some "T1" ∧
    opTaskId cpQueueRewritten = some "T1" ∧
    (get_conversation_stream cpParse (FileAccess.ok "U\nQ\n".data) 0).messages
      = [cpUserMsg, cpQueueRewritten] := by
  decide

-- ======================================================================
-- Helper lemmas and claim theorem: session aggregation (C5)
-- ======================================================================

/-- The seen set only grows during the roster pass. -/
theorem rosterPass_seen_subset (env : AppEnv) :
    ∀ (es : List HistoryEntry) (seen : List String),
      seen ⊆ (rosterPass env es seen).2 := by
  intro es
  induction es with
  | nil => intro seen; simp [rosterPass]
  | cons e es ih =>
    intro seen
    cases hre : resolveEntry env e with
    | none => simpa [rosterPass, hre] using ih seen
    | some sid =>
      by_cases hskip : sid ∈ seen ∨ sid ∈ env.hidden
      · simpa [rosterPass, hre, hskip] using ih seen
      · simp only [rosterPass, hre, hskip, if_false]
        intro a ha
        exact ih (sid :: seen) (List.mem_cons_of_mem sid ha)

/-- Every roster-pass session has an id that was not already seen, is
not hidden, and ends up recorded as seen. -/
theorem rosterPass_mem (env : AppEnv) :
    ∀ (es : List HistoryEntry) (seen : List String) (s : Session),
      s ∈ (rosterPass env es seen).1 →
      s.id ∉ seen ∧ s.id ∉ env.hidden ∧ s.id ∈ (rosterPass env es seen).2 := by
  intro es
  induction es with
  | nil => intro seen s hs; simp [rosterPass] at hs
  | cons e es ih =>
    intro seen s hs
    cases hre : resolveEntry env e with
    | none =>
      rw [show rosterPass env (e :: es) seen = rosterPass env es seen by
        simp [rosterPass, hre]] at hs ⊢
      exact ih seen s hs
    | some sid =>
      by_cases hskip : sid ∈ seen ∨ sid ∈ env.hidden
      · rw [show rosterPass env (e :: es) seen = rosterPass env es seen by
          simp [rosterPass, hre, hskip]] at hs ⊢
        exact ih seen s hs
      · have hexp : rosterPass env (e :: es) seen
            = (mkRosterSession env e sid :: (rosterPass env es (sid :: seen)).1,
               (rosterPass env es (sid :: seen)).2) := by
          simp [rosterPass, hre, hskip]
        rw [hexp] at hs ⊢
        push_neg at hskip
        rcases List.mem_cons.mp hs with hhead | htail
        · subst hhead
          refine ⟨hskip.1, hskip.2, ?_⟩
          exact rosterPass_seen_subset env es (sid :: seen) (List.mem_cons_self sid seen)
        · have h := ih (sid :: seen) s htail
          exact ⟨fun hmem => h.1 (List.mem_cons_of_mem sid hmem), h.2.1, h.2.2⟩

/-- The roster pass emits at most one session per id. -/
theorem rosterPass_nodup (env : AppEnv) :
    ∀ (es : List HistoryEntry) (seen : List String),
      (((rosterPass env es seen).1).map Session.id).Nodup := by
  intro es
  induction es with
  | nil => intro seen; simp [rosterPass]
  | cons e es ih =>
    intro seen
    cases hre : resolveEntry env e with
    | none => simpa [rosterPass, hre] using ih seen
    | some sid =>
      by_cases hskip : sid ∈ seen ∨ sid ∈ env.hidden
      · simpa [rosterPass, hre, hskip] using ih seen
      · have hexp : rosterPass env (e :: es) seen
            = (mkRosterSession env e sid :: (rosterPass env es (sid :: seen)).1,
               (rosterPass env es (sid :: seen)).2) := by
          simp [rosterPass, hre, hskip]
        rw [hexp]
        simp only [List.map_cons, List.nodup_cons]
        refine ⟨?_, ih (sid :: seen)⟩
        intro hmem
        rcases List.mem_map.mp hmem with ⟨s, hsmem, hsid⟩
        have h := (rosterPass_mem env es (sid :: seen) s hsmem).1
        rw [show (mkRosterSession env e sid).id = sid from rfl] at hsid
        exact h (hsid ▸ List.mem_cons_self sid seen)

/-- Every roster-pass session is built from the first roster entry that
resolves to its id: later duplicates are collapsed. -/
theorem rosterPass_first (env : AppEnv) :
    ∀ (es : List HistoryEntry) (seen : List String) (s : Session),
      s ∈ (rosterPass env es seen).1 →
      ∃ l1 e l2, es = l1 ++ e :: l2 ∧ resolveEntry env e = some s.id ∧
        s = mkRosterSession env e s.id ∧
        ∀ e' ∈ l1, resolveEntry env e' ≠ some s.id := by
  intro es
  induction es with
  | nil => intro seen s hs; simp [rosterPass] at hs
  | cons e es ih =>
    intro seen s hs
    cases hre : resolveEntry env e with
    | none =>
      rw [show rosterPass env (e :: es) seen = rosterPass env es seen by
        simp [rosterPass, hre]] at hs
      obtain ⟨l1, e0, l2, heq, hre0, hmk, hfirst⟩ := ih seen s hs
      refine ⟨e :: l1, e0, l2, by simp [heq], hre0, hmk, ?_⟩
      intro e' he'
      rcases List.mem_cons.mp he' with h | h
      · subst h; rw [hre]; simp
      · exact hfirst e' h
    | some sid =>
      by_cases hskip : sid ∈ seen ∨ sid ∈ env.hidden
      · rw [show rosterPass env (e :: es) seen = rosterPass env es seen by
          simp [rosterPass, hre, hskip]] at hs
        obtain ⟨l1, e0, l2, heq, hre0, hmk, hfirst⟩ := ih seen s hs
        have hne : sid ≠ s.id := by
          intro hcontra
          have hm := rosterPass_mem env es seen s hs
          rcases hskip with hsk | hsk
          · exact hm.1 (hcontra ▸ hsk)
          · exact hm.2.1 (hcontra ▸ hsk)
        refine ⟨e :: l1, e0, l2, by simp [heq], hre0, hmk, ?_⟩
        intro e' he'
        rcases List.mem_cons.mp he' with h | h
        · subst h; rw [hre]
          intro hcontra
          exact hne (Option.some.inj hcontra)
        · exact hfirst e' h
      · have hexp : rosterPass env (e :: es) seen
            = (mkRosterSession env e sid :: (rosterPass env es (sid :: seen)).1,
               (rosterPass env es (sid :: seen)).2) := by
          simp [rosterPass, hre, hskip]
        rw [hexp] at hs
        rcases List.mem_cons.mp hs with hhead | htail
        · refine ⟨[], e, es, rfl, ?_, ?_, by intro e' he'; cases he'⟩
          · rw [hhead]; exact hre
          · rw [hhead]; rfl
        · obtain ⟨l1, e0, l2, heq, hre0, hmk, hfirst⟩ := ih (sid :: seen) s htail
          have hne : sid ≠ s.id := by
            have h := (rosterPass_mem env es (sid :: seen) s htail).1
            intro hcontra
            exact h (hcontra ▸ List.mem_cons_self sid seen)
          refine ⟨e :: l1, e0, l2, by simp [heq], hre0, hmk, ?_⟩
          intro e' he'
          rcases List.mem_cons.mp he' with h | h
          · subst h; rw [hre]
            intro hcontra
            exact hne (Option.some.inj hcontra)
          · exact hfirst e' h

/-- Each resolvable roster id is accounted for after the roster pass:
recorded as seen, hidden, or seen before the pass started. -/
theorem rosterIds_covered (env : AppEnv) :
    ∀ (es : List HistoryEntry) (seen : List String) (sid : String),
      sid ∈ es.filterMap (resolveEntry env) →
      sid ∈ (rosterPass env es seen).2 ∨ sid ∈ env.hidden ∨ sid ∈ seen := by
  intro es
  induction es with
  | nil => intro seen sid h; simp at h
  | cons e es ih =>
    intro seen sid h
    rw [List.filterMap_cons] at h
    cases hre : resolveEntry env e with
    | none =>
      rw [hre] at h
      rw [show rosterPass env (e :: es) seen = rosterPass env es seen by
        simp [rosterPass, hre]]
      exact ih seen sid h
    | some sid0 =>
      rw [hre] at h
      by_cases hskip : sid0 ∈ seen ∨ sid0 ∈ env.hidden
      · rw [show rosterPass env (e :: es) seen = rosterPass env es seen by
          simp [rosterPass, hre, hskip]]
        rcases List.mem_cons.mp h with hh | ht
        · subst hh
          rcases hskip with h1 | h1
          · exact Or.inr (Or.inr h1)
          · exact Or.inr (Or.inl h1)
        · exact ih seen sid ht
      · have hexp : rosterPass env (e :: es) seen
            = (mkRosterSession env e sid0 :: (rosterPass env es (sid0 :: seen)).1,
               (rosterPass env es (sid0 :: seen)).2) := by
          simp [rosterPass, hre, hskip]
        rw [hexp]
        rcases List.mem_cons.mp h with hh | ht
        · subst hh
          exact Or.inl (rosterPass_seen_subset env es (sid :: seen)
            (List.mem_cons_self sid seen))
        · rcases ih (sid0 :: seen) sid ht with h1 | h1 | h1
          · exact Or.inl h1
          · exact Or.inr (Or.inl h1)
          · rcases List.mem_cons.mp h1 with h2 | h2
            · subst h2
              exact Or.inl (rosterPass_seen_subset env es (sid :: seen)
                (List.mem_cons_self sid seen))
            · exact Or.inr (Or.inr h2)

/-- Every orphan-pass session has an unseen, unhidden id and a non-zero
conversational line count. -/
theorem orphanPass_mem (env : AppEnv) :
    ∀ (idx : List (String × String)) (seen : List String) (s : Session),
      s ∈ orphanPass env idx seen →
      s.id ∉ seen ∧ s.id ∉ env.hidden ∧ s.message_count = env.countOf s.id ∧
        env.countOf s.id ≠ 0 := by
  intro idx
  induction idx with
  | nil => intro seen s hs; simp [orphanPass] at hs
  | cons p rest ih =>
    intro seen s hs
    obtain ⟨sid, fp⟩ := p
    by_cases hskip : sid ∈ seen ∨ sid ∈ env.hidden
    · rw [show orphanPass env ((sid, fp) :: rest) seen = orphanPass env rest seen by
        simp [orphanPass, hskip]] at hs
      exact ih seen s hs
    · by_cases hz : env.countOf sid = 0
      · rw [show orphanPass env ((sid, fp) :: rest) seen
            = orphanPass env rest (sid :: seen) by simp [orphanPass, hskip, hz]] at hs
        have h := ih (sid :: seen) s hs
        exact ⟨fun hmem => h.1 (List.mem_cons_of_mem sid hmem), h.2⟩
      · rw [show orphanPass env ((sid, fp) :: rest) seen
            = mkOrphanSession env sid fp :: orphanPass env rest (sid :: seen) by
          simp [orphanPass, hskip, hz]] at hs
        push_neg at hskip
        rcases List.mem_cons.mp hs with hh | ht
        · subst hh
          exact ⟨hskip.1, hskip.2, rfl, hz⟩
        · have h := ih (sid :: seen) s ht
          exact ⟨fun hmem => h.1 (List.mem_cons_of_mem sid hmem), h.2⟩

/-- The orphan pass emits at most one session per id. -/
theorem orphanPass_nodup (env : AppEnv) :
    ∀ (idx : List (String × String)) (seen : List String),
      ((orphanPass env idx seen).map Session.id).Nodup := by
  intro idx
  induction idx with
  | nil => intro seen; simp [orphanPass]
  | cons p rest ih =>
    intro seen
    obtain ⟨sid, fp⟩ := p
    by_cases hskip : sid ∈ seen ∨ sid ∈ env.hidden
    · simpa [orphanPass, hskip] using ih seen
    · by_cases hz : env.countOf sid = 0
      · simpa [orphanPass, hskip, hz] using ih (sid :: seen)
      · rw [show orphanPass env ((sid, fp) :: rest) seen
            = mkOrphanSession env sid fp :: orphanPass env rest (sid :: seen) by
          simp [orphanPass, hskip, hz]]
        simp only [List.map_cons, List.nodup_cons]
        refine ⟨?_, ih (sid :: seen)⟩
        intro hmem
        rcases List.mem_map.mp hmem with ⟨s, hsmem, hsid⟩
        have h := (orphanPass_mem env rest (sid :: seen) s hsmem).1
        rw [show (mkOrphanSession env sid fp).id = sid from rfl] at hsid
        exact h (hsid ▸ List.mem_cons_self sid seen)

/-- C5: every `get_sessions` result is sorted by last activity
descending, holds at most one session per id even when the roster log
repeats an id (the session is built from the first resolving entry,
later duplicates are silently collapsed), never contains a hidden id,
and never contains an orphan session — one whose id no roster entry
resolves to — whose file has zero conversational lines. -/
theorem c5_session_list_shape (env : AppEnv) :
    List.Pairwise sessionLE (get_sessions env) ∧
    ((get_sessions env).map Session.id).Nodup ∧
    (∀ s ∈ get_sessions env, s.id ∉ env.hidden) ∧
    (∀ s ∈ get_sessions env, s.id ∈ env.entries.filterMap (resolveEntry env) →
       ∃ l1 e l2, env.entries = l1 ++ e :: l2 ∧ resolveEntry env e = some s.id ∧
         s = mkRosterSession env e s.id ∧
         ∀ e' ∈ l1, resolveEntry env e' ≠ some s.id) ∧
    (∀ s ∈ get_sessions env, s.id ∉ env.entries.filterMap (resolveEntry env) →
       s.message_count = env.countOf s.id ∧ env.countOf s.id ≠ 0) := by
  have hmem : ∀ s : Session, s ∈ get_sessions env ↔
      s ∈ (rosterPass env env.entries []).1 ∨
      s ∈ orphanPass env env.fileIndex (rosterPass env env.entries []).2 := by
    intro s
    simp [get_sessions, List.mem_insertionSort, List.mem_append]
  refine ⟨?_, ?_, ?_, ?_, ?_⟩
  · exact List.sorted_insertionSort sessionLE _
  · have hperm : List.Perm (get_sessions env)
        ((rosterPass env env.entries []).1
            ++ orphanPass env env.fileIndex (rosterPass env env.entries []).2) :=
      List.perm_insertionSort sessionLE _
    have hpre : ((((rosterPass env env.entries []).1)
        ++ orphanPass env env.fileIndex (rosterPass env env.entries []).2).map
          Session.id).Nodup := by
      rw [List.map_append, List.nodup_append]
      refine ⟨rosterPass_nodup env env.entries [], orphanPass_nodup env env.fileIndex _, ?_⟩
      intro a ha hb
      rcases List.mem_map.mp ha with ⟨s1, hs1, hid1⟩
      rcases List.mem_map.mp hb with ⟨s2, hs2, hid2⟩
      have h1 := (rosterPass_mem env env.entries [] s1 hs1).2.2
      have h2 := (orphanPass_mem env env.fileIndex _ s2 hs2).1
      rw [hid2] at h2
      rw [hid1] at h1
      exact h2 h1
    exact ((hperm.map Session.id).nodup_iff).mpr hpre
  · intro s hs
    rcases (hmem s).mp hs with h | h
    · exact (rosterPass_mem env env.entries [] s h).2.1
    · exact (orphanPass_mem env env.fileIndex _ s h).2.1
  · intro s hs hrid
    rcases (hmem s).mp hs with h | h
    · exact rosterPass_first env env.entries [] s h
    · exfalso
      have h1 := (orphanPass_mem env env.fileIndex _ s h).1
      have h2 := (orphanPass_mem env env.fileIndex _ s h).2.1
      rcases rosterIds_covered env env.entries [] s.id hrid with hc | hc | hc
      · exact h1 hc
      · exact h2 hc
      · cases hc
  · intro s hs hnrid
    rcases (hmem s).mp hs with h | h
    · exfalso
      obtain ⟨l1, e, l2, heq, hre, _, _⟩ := rosterPass_first env env.entries [] s h
      apply hnrid
      apply List.mem_filterMap.mpr
      refine ⟨e, ?_, hre⟩
      rw [heq]
      exact List.mem_append_right l1 (List.mem_cons_self e l2)
    · exact ⟨(orphanPass_mem env env.fileIndex _ s h).2.2.1,
        (orphanPass_mem env env.fileIndex _ s h).2.2.2⟩

/-- Witness for C5 at a concrete environment with a duplicated roster
id, a live orphan, a hidden orphan and an empty orphan. -/
theorem c5_session_list_shape_witness :
    List.Pairwise sessionLE (get_sessions sampleAppEnv) ∧
    ((get_sessions sampleAppEnv).map Session.id).Nodup ∧
    (∀ s ∈ get_sessions sampleAppEnv, s.id ∉ sampleAppEnv.hidden) :=
  ⟨(c5_session_list_shape sampleAppEnv).1,
   (c5_session_list_shape sampleAppEnv).2.1,
   (c5_session_list_shape sampleAppEnv).2.2.1⟩

-- ======================================================================
-- Helper lemmas and claim theorems: session deletion (C6)
-- ======================================================================

/-- A filter keeps the full length iff it keeps every element. -/
theorem filter_length_eq_iff {α : Type} (p : α → Bool) :
    ∀ l : List α, ((l.filter p).length = l.length ↔ ∀ a ∈ l, p a = true) := by
  intro l
  induction l with
  | nil => simp
  | cons a l ih =>
    cases hp : p a with
    | true => simp [hp, ih]
    | false =>
      have hle := List.length_filter_le p l
      constructor
      · intro h
        exfalso
        simp [hp] at h
        omega
      · intro h
        exfalso
        have := h a (List.mem_cons_self a l)
        rw [hp] at this
        cases this

/-- The roster rewrite drops nothing iff no line matches the id. -/
theorem filter_keep_all_iff_no_match (pH : List Char → Option HistoryEntry)
    (sid : String) (ls : List (List Char)) :
    ((ls.filter (fun l =>
        match pH l with
        | some e => !(e.session_id == some sid)
        | none => true)).length = ls.length)
    ↔ ∀ l ∈ ls, ∀ e, pH l = some e → e.session_id ≠ some sid := by
  rw [filter_length_eq_iff]
  constructor
  · intro h l hl e he
    have hk := h l hl
    rw [he] at hk
    simpa using hk
  · intro h l hl
    cases he : pH l with
    | none => simp
    | some e =>
      simp only [Bool.not_eq_true']
      simpa using h l hl e he

/-- Removing a key from an association list makes its lookup fail. -/
theorem lookupKey_filter_self {α : Type} (sid : String) :
    ∀ l : List (String × α),
      lookupKey sid (l.filter (fun p => !(p.1 == sid))) = none := by
  intro l
  induction l with
  | nil => rfl
  | cons kv l ih =>
    obtain ⟨k, v⟩ := kv
    by_cases hk : k = sid
    · simpa [hk] using ih
    · simpa [List.filter_cons, hk, lookupKey] using ih

/-- Feeding newline-free bytes to the line splitter extends the current
line. -/
theorem linesAux_append (ys : List Char) :
    ∀ (cur rest : List Char), (∀ c ∈ ys, c ≠ '\n') →
      linesAux cur (ys ++ rest) = linesAux (cur ++ ys) rest := by
  induction ys with
  | nil => intro cur rest _; simp
  | cons y ys ih =>
    intro cur rest h
    have hy : y ≠ '\n' := h y (List.mem_cons_self y ys)
    have hstep : linesAux cur (y :: (ys ++ rest)) = linesAux (cur ++ [y]) (ys ++ rest) := by
      simp [linesAux, hy]
    simpa [hstep, List.append_assoc] using
      ih (cur ++ [y]) rest (fun c hc => h c (List.mem_cons_of_mem y hc))

/-- Lines produced by the splitter contain no newline. -/
theorem mem_linesOf_no_newline :
    ∀ (cs cur l : List Char), (∀ c ∈ cur, c ≠ '\n') →
      l ∈ linesAux cur cs → ∀ c ∈ l, c ≠ '\n' := by
  intro cs
  induction cs with
  | nil =>
    intro cur l hcur hl
    by_cases hc : cur = []
    · simp [linesAux, hc] at hl
    · simp [linesAux, hc] at hl
      subst hl
      exact hcur
  | cons c cs ih =>
    intro cur l hcur hl
    by_cases hc : c = '\n'
    · subst hc
      rw [show linesAux cur ('\n' :: cs) = cur :: linesAux [] cs by simp [linesAux]] at hl
      rcases List.mem_cons.mp hl with hh | ht
      · subst hh; exact hcur
      · exact ih [] l (by intro x hx; cases hx) ht
    · rw [show linesAux cur (c :: cs) = linesAux (cur ++ [c]) cs by
        simp [linesAux, hc]] at hl
      refine ih (cur ++ [c]) l ?_ hl
      intro x hx
      rcases List.mem_append.mp hx with h | h
      · exact hcur x h
      · simp at h; subst h; exact hc

/-- Rebuilding the roster log from its surviving non-blank lines and
re-splitting it recovers exactly those lines. -/
theorem nonblank_linesOf_join :
    ∀ ls : List (List Char),
      (∀ l ∈ ls, ∀ c ∈ l, c ≠ '\n') →
      (∀ l ∈ ls, isBlank l = false) →
      (linesOf (joinWith '\n' ls ++ ['\n'])).filter (fun l => !(isBlank l)) = ls := by
  intro ls
  induction ls with
  | nil =>
    intro _ _
    simp [joinWith, linesOf, linesAux, isBlank]
  | cons l rest ih =>
    intro hnl hnb
    have hlnl : ∀ c ∈ l, c ≠ '\n' := hnl l (List.mem_cons_self l rest)
    have hlnb : isBlank l = false := hnb l (List.mem_cons_self l rest)
    cases rest with
    | nil =>
      have : linesOf (l ++ ['\n']) = [l] := by
        rw [linesOf, linesAux_append l [] ['\n'] hlnl]
        simp [linesAux]
      simp [joinWith, this, hlnb]
    | cons l2 rest2 =>
      have hjoin : joinWith '\n' (l :: l2 :: rest2) ++ ['\n']
          = l ++ '\n' :: (joinWith '\n' (l2 :: rest2) ++ ['\n']) := by
        simp [joinWith]
      have hlines : linesOf (joinWith '\n' (l :: l2 :: rest2) ++ ['\n'])
          = l :: linesOf (joinWith '\n' (l2 :: rest2) ++ ['\n']) := by
        rw [hjoin, linesOf, linesAux_append l [] ('\n' :: (joinWith '\n' (l2 :: rest2) ++ ['\n'])) hlnl]
        simp [linesAux, linesOf]
      rw [hlines]
      rw [List.filter_cons]
      rw [hlnb]
      simp only [Bool.not_false, if_true]
      rw [ih (fun x hx => hnl x (List.mem_cons_of_mem l hx))
           (fun x hx => hnb x (List.mem_cons_of_mem l hx))]

/-- A hidden id never appears in the aggregated session list. -/
theorem get_sessions_hidden_excluded (env : AppEnv) (s : Session)
    (hs : s ∈ get_sessions env) : s.id ∉ env.hidden := by
  have hmem : s ∈ (rosterPass env env.entries []).1 ∨
      s ∈ orphanPass env env.fileIndex (rosterPass env env.entries []).2 := by
    simpa [get_sessions, List.mem_insertionSort, List.mem_append] using hs
  rcases hmem with h | h
  · exact (rosterPass_mem env env.entries [] s h).2.1
  · exact (orphanPass_mem env env.fileIndex _ s h).2.1

/-- C6 (amended): with a readable roster log, `delete_session` returns
true exactly when a roster line carries the id or the id is in the file
index; when it returns false it changes nothing (in particular the id is
not hidden); when it returns true it hides the id, marks the roster
cache dirty, appends the id to the persisted deleted-ids file, removes
the id from the file index and the summary cache, and the rewritten
roster log retains no line carrying the id; and any aggregation whose
hidden set holds the id never lists it. -/
theorem c6_delete_session_amended
    (pH : List Char → Option HistoryEntry) (st : DeleteState) (sid : String)
    (content : List Char) (ls : List (List Char))
    (hc : st.historyContent = some content)
    (hls : ls = (linesOf content).filter (fun l => !(isBlank l))) :
    ((delete_session pH st sid).1 = true ↔
      (∃ l ∈ ls, ∃ e, pH l = some e ∧ e.session_id = some sid) ∨
      (lookupKey sid st.fileIndex).isSome = true) ∧
    ((delete_session pH st sid).1 = false → (delete_session pH st sid).2 = st) ∧
    ((delete_session pH st sid).1 = true →
      sid ∈ (delete_session pH st sid).2.hidden ∧
      (delete_session pH st sid).2.historyDirty = true ∧
      (delete_session pH st sid).2.deletedFile = st.deletedFile ++ [sid] ∧
      lookupKey sid (delete_session pH st sid).2.fileIndex = none ∧
      lookupKey sid (delete_session pH st sid).2.summaryCache = none ∧
      ∀ l ∈ (linesOf ((delete_session pH st sid).2.historyContent.getD [])).filter
          (fun l => !(isBlank l)),
        ∀ e, pH l = some e → e.session_id ≠ some sid) ∧
    (∀ env : AppEnv, sid ∈ env.hidden → ∀ s ∈ get_sessions env, s.id ≠ sid) := by
  subst hls
  have hlast : ∀ env : AppEnv, sid ∈ env.hidden → ∀ s ∈ get_sessions env, s.id ≠ sid := by
    intro env hhid s hs hcontra
    exact get_sessions_hidden_excluded env s hs (hcontra ▸ hhid)
  obtain ⟨hist, fidx, hid0, scache, dirty0, delf⟩ := st
  simp only [] at hc
  subst hc
  by_cases hlen : (((linesOf content).filter (fun l => !(isBlank l))).filter (fun l =>
      match pH l with
      | some e => !(e.session_id == some sid)
      | none => true)).length = ((linesOf content).filter (fun l => !(isBlank l))).length
  · have hnomatch := (filter_keep_all_iff_no_match pH sid
      ((linesOf content).filter (fun l => !(isBlank l)))).mp hlen
    cases hidx : (lookupKey sid fidx).isSome with
    | false =>
      have hD : delete_session pH ⟨some content, fidx, hid0, scache, dirty0, delf⟩ sid
          = (false, ⟨some content, fidx, hid0, scache, dirty0, delf⟩) := by
        simp only [delete_session]
        split
        · rfl
        · rename_i hcontra
          exact absurd ⟨hlen, hidx⟩ hcontra
      refine ⟨?_, ?_, ?_, hlast⟩
      · rw [hD]
        simp only [Bool.false_eq_true, false_iff]
        intro h
        rcases h with ⟨l, hl, e, he, hse⟩ | h
        · exact hnomatch l hl e he hse
        · exact h.elim
      · intro _
        rw [hD]
      · intro htrue
        rw [hD] at htrue
        cases htrue
    | true =>
      have hD : delete_session pH ⟨some content, fidx, hid0, scache, dirty0, delf⟩ sid
          = (true, ⟨some content, fidx.filter (fun p => !(p.1 == sid)), sid :: hid0,
                    scache.filter (fun p => !(p.1 == sid)), true, delf ++ [sid]⟩) := by
        simp only [delete_session]
        split
        · rename_i hcontra
          simp [hidx] at hcontra
        · rfl
      refine ⟨?_, ?_, ?_, hlast⟩
      · rw [hD]
        simp only [true_iff]
        exact Or.inr trivial
      · intro hfalse
        rw [hD] at hfalse
        cases hfalse
      · intro _
        rw [hD]
        refine ⟨List.mem_cons_self sid hid0, rfl, rfl,
                lookupKey_filter_self sid fidx,
                lookupKey_filter_self sid scache, ?_⟩
        simp only [Option.getD_some]
        exact hnomatch
  · have hD : delete_session pH ⟨some content, fidx, hid0, scache, dirty0, delf⟩ sid
        = (true, ⟨some (joinWith '\n' (((linesOf content).filter (fun l => !(isBlank l))).filter
              (fun l =>
                match pH l with
                | some e => !(e.session_id == some sid)
                | none => true)) ++ ['\n']),
            fidx.filter (fun p => !(p.1 == sid)), sid :: hid0,
            scache.filter (fun p => !(p.1 == sid)), true, delf ++ [sid]⟩) := by
      simp only [delete_session]
      split
      · rename_i hcontra
        exact absurd hcontra.1 hlen
      · rfl
    have hmatch : ∃ l ∈ (linesOf content).filter (fun l => !(isBlank l)),
        ∃ e, pH l = some e ∧ e.session_id = some sid := by
      by_contra hno
      push_neg at hno
      apply hlen
      apply (filter_keep_all_iff_no_match pH sid
        ((linesOf content).filter (fun l => !(isBlank l)))).mpr
      intro l hl e he hse
      exact hno l hl e he hse
    refine ⟨?_, ?_, ?_, hlast⟩
    · rw [hD]
      simp only [true_iff]
      exact Or.inl hmatch
    · intro hfalse
      rw [hD] at hfalse
      cases hfalse
    · intro _
      rw [hD]
      refine ⟨List.mem_cons_self sid hid0, rfl, rfl,
              lookupKey_filter_self sid fidx,
              lookupKey_filter_self sid scache, ?_⟩
      simp only [Option.getD_some]
      have hsub : ∀ l ∈ ((linesOf content).filter (fun l => !(isBlank l))).filter
          (fun l =>
            match pH l with
            | some e => !(e.session_id == some sid)
            | none => true),
          ∀ c ∈ l, c ≠ '\n' := by
        intro l hl
        have h1 : l ∈ linesOf content :=
          List.mem_of_mem_filter (List.mem_of_mem_filter hl)
        exact mem_linesOf_no_newline content [] l (by intro x hx; cases hx) h1
      have hnb : ∀ l ∈ ((linesOf content).filter (fun l => !(isBlank l))).filter
          (fun l =>
            match pH l with
            | some e => !(e.session_id == some sid)
            | none => true),
          isBlank l = false := by
        intro l hl
        have h1 := List.of_mem_filter (List.mem_of_mem_filter hl)
        simpa using h1
      rw [nonblank_linesOf_join _ hsub hnb]
      intro l hl e he hse
      have hk := List.of_mem_filter hl
      rw [he] at hk
      simp at hk
      exact hk hse

/-- C6 counterexample (claim as stated is false): with an empty roster
log and an empty file index, `delete_session` returns false and does not
mark the id hidden — the claim's "always marks the id hidden" fails. -/
theorem c6_delete_counterexample :
    (delete_session (fun _ => none) sampleDeleteState "x").1 = false ∧
    "x" ∉ (delete_session (fun _ => none) sampleDeleteState "x").2.hidden := by
  decide

/-- Witness for the amended C6: deleting id "x" from a state with a
matching roster line and caches succeeds, hides "x" and scrubs the
index. -/
theorem c6_delete_session_amended_witness :
    (delete_session samplePH sampleDeleteState2 "x").1 = true ∧
    "x" ∈ (delete_session samplePH sampleDeleteState2 "x").2.hidden ∧
    lookupKey "x" (delete_session samplePH sampleDeleteState2 "x").2.fileIndex = none := by
  have h := c6_delete_session_amended samplePH sampleDeleteState2 "x" "h1\nh2\n".data
    ((linesOf "h1\nh2\n".data).filter (fun l => !(isBlank l))) rfl rfl
  have htrue : (delete_session samplePH sampleDeleteState2 "x").1 = true := by decide
  exact ⟨htrue, (h.2.2.1 htrue).1, (h.2.2.1 htrue).2.2.2.1⟩
